import Mathlib

/-!
Verification model of `lib/backend/model/block.go` from the calico repository.

The Go source manipulates CIDRs through `github.com/tigera/libcalico-go/lib/net`,
a thin wrapper around Go's standard `net` package.  We embed that data shallowly:

* an IP address is either four IPv4 octets or eight 16-bit IPv6 groups; Go's
  `To4` normalisation (a 16-byte address of the form `::ffff:a.b.c.d` prints,
  versions and compares like the IPv4 address `a.b.c.d`) is reflected by
  representing such addresses directly with the `v4` constructor;
* an `IPNet` carries an optional address (Go `IP == nil` is `none`) and a
  canonical mask given by its prefix length, which is how every net produced
  by `net.ParseCIDR` is shaped;
* `String`, `ParseCIDR`, `strings.Replace(s, old, new, 1)` and the anchored
  regular expression `^/?/calico/ipam/v2/assignment/ipv./block/([^/]+)$`
  (RE2 semantics: `.` is any rune except newline, `[^/]` is any rune except
  a slash) are translated into executable functions below.
-/

namespace Calico

/-! ## Decimal and hexadecimal digit strings (Go `fmt` / `strconv` behaviour) -/

/-- Fuel-driven digit accumulator: renders `n` in base `base` (most significant
digit first) in front of `acc`, as Go's integer formatting does. -/
def toCharsCore (base : Nat) : Nat → Nat → List Char → List Char
  | 0, _, acc => acc
  | fuel + 1, n, acc =>
    if n < base then Nat.digitChar (n % base) :: acc
    else toCharsCore base fuel (n / base) (Nat.digitChar (n % base) :: acc)

/-- Decimal digits of `n`, as printed by Go's `%d` for a non-negative value. -/
def toChars10 (n : Nat) : List Char := toCharsCore 10 (n + 1) n []

/-- Lowercase hexadecimal digits of `n`, as printed for IPv6 groups. -/
def toChars16 (n : Nat) : List Char := toCharsCore 16 (n + 1) n []

/-- Decimal rendering of a natural number as a string. -/
def natStr (n : Nat) : String := ⟨toChars10 n⟩

/-- Rendering of a (possibly negative) integer, Go `%d`. -/
def intStr (n : Int) : String := if n < 0 then "-" ++ natStr n.natAbs else natStr n.natAbs

/-! ## IP addresses -/

/-- An IP address: four IPv4 octets, or eight 16-bit IPv6 groups.  Go's
16-byte `::ffff:a.b.c.d` form is identified with its `v4` image (`To4`). -/
inductive IPAddr where
  | v4 (a b c d : Nat)
  | v6 (g0 g1 g2 g3 g4 g5 g6 g7 : Nat)
deriving DecidableEq

/-- `IP.Version` from libcalico: 4 when `To4() != nil`, else 6. -/
def IPAddr.version : IPAddr → Nat
  | .v4 _ _ _ _ => 4
  | .v6 _ _ _ _ _ _ _ _ => 6

/-- Dotted-quad rendering of an IPv4 address. -/
def v4Chars (a b c d : Nat) : List Char :=
  toChars10 a ++ '.' :: toChars10 b ++ '.' :: toChars10 c ++ '.' :: toChars10 d

/-- Number of leading zero groups. -/
def countLeadZeros : List Nat → Nat
  | [] => 0
  | g :: rest => if g = 0 then countLeadZeros rest + 1 else 0

/-- Length of the zero run starting at index `i`. -/
def runLenAt (gs : List Nat) (i : Nat) : Nat := countLeadZeros (gs.drop i)

/-- Whether index `i` starts a maximal run of zero groups. -/
def isRunStart (gs : List Nat) (i : Nat) : Bool :=
  decide (gs.getD i 1 = 0) && (decide (i = 0) || decide (gs.getD (i - 1) 1 ≠ 0))

/-- The zero run compressed by Go's IPv6 formatter: the first maximal run of
length at least two that is strictly longer than every earlier maximal run. -/
def bestRun (gs : List Nat) : Option (Nat × Nat) :=
  let cands := ((List.range gs.length).filter (isRunStart gs)).map fun i => (i, runLenAt gs i)
  let best := cands.foldl
    (fun acc c =>
      match acc with
      | none => some c
      | some b => if b.2 < c.2 then some c else some b)
    none
  match best with
  | none => none
  | some p => if 2 ≤ p.2 then some p else none

/-- Interleave `':'` between the group renderings. -/
def joinColon : List (List Char) → List Char
  | [] => []
  | [x] => x
  | x :: y :: xs => x ++ ':' :: joinColon (y :: xs)

/-- Go's IPv6 textual form: lowercase hex groups joined by `':'`, with the
chosen zero run compressed to `"::"`. -/
def ipv6Chars (gs : List Nat) : List Char :=
  match bestRun gs with
  | none => joinColon (gs.map toChars16)
  | some (i, l) =>
      joinColon ((gs.take i).map toChars16) ++ ':' :: ':' ::
        joinColon ((gs.drop (i + l)).map toChars16)

/-- `IP.String()`. -/
def IPAddr.chars : IPAddr → List Char
  | .v4 a b c d => v4Chars a b c d
  | .v6 g0 g1 g2 g3 g4 g5 g6 g7 => ipv6Chars [g0, g1, g2, g3, g4, g5, g6, g7]

/-! ## IP networks (`net.IPNet` with a canonical CIDR mask) -/

/-- A CIDR: optional address (Go `nil` IP is `none`) plus prefix length. -/
structure IPNet where
  ip : Option IPAddr
  prefixLen : Nat
deriving DecidableEq

/-- `IPNet.Version` from libcalico (nil address never reaches it). -/
def IPNet.version (n : IPNet) : Nat :=
  match n.ip with
  | some a => a.version
  | none => 6

/-- `IPNet.String()`: address, `'/'`, decimal prefix length. -/
def ipnetChars (n : IPNet) : List Char :=
  match n.ip with
  | some a => a.chars ++ '/' :: toChars10 n.prefixLen
  | none => "<nil>".data ++ '/' :: toChars10 n.prefixLen

/-- String form of `ipnetChars`. -/
def ipnetString (n : IPNet) : String := ⟨ipnetChars n⟩

/-! ## Parsing (`net.ParseCIDR`) -/

/-- Split a character list at the first occurrence of `t`. -/
def splitFirst : List Char → Char → Option (List Char × List Char)
  | [], _ => none
  | c :: cs, t =>
    if c = t then some ([], cs)
    else (splitFirst cs t).map fun p => (c :: p.1, p.2)

/-- Split on every occurrence of `t` (Go field splitting). -/
def splitOnChar (t : Char) : List Char → List (List Char)
  | [] => [[]]
  | c :: cs =>
    let r := splitOnChar t cs
    if c = t then [] :: r
    else
      match r with
      | [] => [[c]]
      | x :: xs => (c :: x) :: xs

/-- Decimal value of a non-empty digit string (Go's `dtoi`, leading zeros
accepted, any non-digit rejects). -/
def decNat? (cs : List Char) : Option Nat :=
  if cs = [] then none
  else if cs.all Char.isDigit then
    some (cs.foldl (fun n c => n * 10 + (c.toNat - 48)) 0)
  else none

/-- Value of one hexadecimal digit. -/
def hexVal? (c : Char) : Option Nat :=
  if c.isDigit then some (c.toNat - 48)
  else if 'a' ≤ c ∧ c ≤ 'f' then some (c.toNat - 97 + 10)
  else if 'A' ≤ c ∧ c ≤ 'F' then some (c.toNat - 65 + 10)
  else none

/-- Hexadecimal value of a non-empty hex-digit string (Go's `xtoi`). -/
def hexNat? (cs : List Char) : Option Nat :=
  match cs with
  | [] => none
  | _ =>
    cs.foldl
      (fun acc c =>
        match acc, hexVal? c with
        | some n, some d => some (n * 16 + d)
        | _, _ => none)
      (some 0)

/-- Go's `parseIPv4`: exactly four dot-separated decimal octets, each at
most 255. -/
def parseIPv4 (cs : List Char) : Option IPAddr :=
  match splitOnChar '.' cs with
  | [a, b, c, d] =>
    match decNat? a, decNat? b, decNat? c, decNat? d with
    | some x, some y, some z, some w =>
        if x ≤ 255 ∧ y ≤ 255 ∧ z ≤ 255 ∧ w ≤ 255 then some (.v4 x y z w) else none
    | _, _, _, _ => none
  | _ => none

/-- Split at the first `"::"`, when present. -/
def splitEllipsis : List Char → Option (List Char × List Char)
  | [] => none
  | [_] => none
  | ':' :: ':' :: rest => some ([], rest)
  | c :: cs => (splitEllipsis (cs)).map fun p => (c :: p.1, p.2)

/-- Parse colon-separated fields as 16-bit hex groups (no embedded IPv4). -/
def parseHexFields (fields : List (List Char)) : Option (List Nat) :=
  fields.foldr
    (fun f acc =>
      match acc, hexNat? f with
      | some gs, some v => if v ≤ 65535 then some (v :: gs) else none
      | _, _ => none)
    (some [])

/-- Parse fields where the final field may be a dotted quad contributing the
last 32 bits, as Go's `parseIPv6` allows. -/
def parseFieldsAllowV4 (fields : List (List Char)) : Option (List Nat) :=
  match fields.getLast? with
  | none => some []
  | some lf =>
    if '.' ∈ lf then
      match parseHexFields fields.dropLast, parseIPv4 lf with
      | some gs, some (.v4 a b c d) => some (gs ++ [a * 256 + b, c * 256 + d])
      | _, _ => none
    else parseHexFields fields

/-- Go's `parseIPv6`, producing the eight 16-bit groups. -/
def parseIPv6Groups (cs : List Char) : Option (List Nat) :=
  match splitEllipsis cs with
  | none =>
    match parseFieldsAllowV4 (splitOnChar ':' cs) with
    | some gs => if gs.length = 8 then some gs else none
    | none => none
  | some (l, r) =>
    let lgs? := if l = [] then some [] else parseHexFields (splitOnChar ':' l)
    let rgs? := if r = [] then some [] else parseFieldsAllowV4 (splitOnChar ':' r)
    match lgs?, rgs? with
    | some lgs, some rgs =>
        if lgs.length + rgs.length ≤ 7 then
          some (lgs ++ List.replicate (8 - lgs.length - rgs.length) 0 ++ rgs)
        else none
    | _, _ => none

/-- Keep the top `n` of `bits` bits of `v` (CIDR masking). -/
def maskVal (v bits n : Nat) : Nat := v / 2 ^ (bits - n) * 2 ^ (bits - n)

/-- 128-bit value of eight groups. -/
def v6ToNat (gs : List Nat) : Nat := gs.foldl (fun acc g => acc * 65536 + g) 0

/-- The eight groups of a 128-bit value. -/
def natToGroups (m : Nat) : List Nat :=
  (List.range 8).map fun i => m / 65536 ^ (7 - i) % 65536

/-- Rebuild an address from masked groups, applying the `To4` identification
for `::ffff:a.b.c.d` forms. -/
def groupsToAddr (gs : List Nat) : IPAddr :=
  match gs with
  | [g0, g1, g2, g3, g4, g5, g6, g7] =>
    if g0 = 0 ∧ g1 = 0 ∧ g2 = 0 ∧ g3 = 0 ∧ g4 = 0 ∧ g5 = 65535 then
      .v4 (g6 / 256) (g6 % 256) (g7 / 256) (g7 % 256)
    else .v6 g0 g1 g2 g3 g4 g5 g6 g7
  | _ => .v6 0 0 0 0 0 0 0 0

/-- `net.ParseCIDR`, returning the masked network: split at the first `'/'`,
parse the address (IPv4 first, then IPv6), parse the decimal prefix length,
check it against the address width, and mask the address. -/
def parseCIDR (s : String) : Option IPNet :=
  match splitFirst s.data '/' with
  | none => none
  | some (addrCs, maskCs) =>
    match decNat? maskCs with
    | none => none
    | some n =>
      match parseIPv4 addrCs with
      | some (.v4 a b c d) =>
        if n ≤ 32 then
          let m := maskVal (((a * 256 + b) * 256 + c) * 256 + d) 32 n
          some ⟨some (.v4 (m / 16777216) (m / 65536 % 256) (m / 256 % 256) (m % 256)), n⟩
        else none
      | _ =>
        match parseIPv6Groups addrCs with
        | some gs =>
            if n ≤ 128 then
              some ⟨some (groupsToAddr (natToGroups (maskVal (v6ToNat gs) 128 n))), n⟩
            else none
        | none => none

/-! ## `strings.Replace(s, old, new, 1)` for single-character patterns -/

/-- Replace the first occurrence of character `a` by `b`. -/
def replaceFirstChar (a b : Char) : List Char → List Char
  | [] => []
  | c :: cs => if c = a then b :: cs else c :: replaceFirstChar a b cs

/-- Model of `strings.Replace(s, old, new, 1)` for the one-character `old`
and `new` used by the block codec. -/
def strReplaceFirst (s : String) (a b : Char) : String := ⟨replaceFirstChar a b s.data⟩

/-! ## The block key and its paths (`block.go`) -/

/-- Error taxonomy reaching this model (`errors.ErrorInsufficientIdentifiers`,
plus the spec's ledger errors). -/
inductive ErrKind where
  | insufficientIdentifiers
  | affinityViolation
  | alreadyUnallocated (ordinal : Nat)
deriving DecidableEq

/-- `BlockKey`: identity of a block, a single CIDR. -/
structure BlockKey where
  CIDR : IPNet
deriving DecidableEq

/-- `BlockKey.defaultPath`: fail when the CIDR's IP is nil, otherwise render
`/calico/ipam/v2/assignment/ipv%d/block/%s` with the CIDR's first `'/'`
replaced by `'-'`. -/
def defaultPath (key : BlockKey) : Except ErrKind String :=
  match key.CIDR.ip with
  | none => .error .insufficientIdentifiers
  | some _ =>
    .ok ("/calico/ipam/v2/assignment/ipv" ++ natStr key.CIDR.version ++ "/block/" ++
      strReplaceFirst (ipnetString key.CIDR) '/' '-')

/-- `BlockKey.defaultDeletePath`: delegates to `defaultPath`. -/
def defaultDeletePath (key : BlockKey) : Except ErrKind String := defaultPath key

/-- `BlockListOptions`: an optional IP version, 0 meaning any. -/
structure BlockListOptions where
  IPVersion : Int
deriving DecidableEq

/-- `BlockListOptions.defaultPathRoot`. -/
def defaultPathRoot (options : BlockListOptions) : String :=
  if options.IPVersion ≠ 0 then
    "/calico/ipam/v2/assignment/" ++ ("ipv" ++ intStr options.IPVersion ++ "/")
  else "/calico/ipam/v2/assignment/"

/-! ## The anchored regular expression `matchBlock` -/

/-- Strip a literal pattern from the front of a character list. -/
def dropLead : List Char → List Char → Option (List Char)
  | [], s => some s
  | _ :: _, [] => none
  | p :: ps, c :: cs => if c = p then dropLead ps cs else none

/-- The literal before the version character. -/
def assignLit : List Char := "/calico/ipam/v2/assignment/ipv".data

/-- The literal before the captured segment. -/
def blockLit : List Char := "/block/".data

/-- Match `/calico/ipam/v2/assignment/ipv./block/([^/]+)$` against a whole
character list: fixed literal, one arbitrary non-newline rune, the `/block/`
literal, then a non-empty capture with no slash, running to the end. -/
def matchCore (s : List Char) : Option (List Char) :=
  match dropLead assignLit s with
  | none => none
  | some rest =>
    match rest with
    | [] => none
    | c :: rest2 =>
      if c = '\n' then none
      else
        match dropLead blockLit rest2 with
        | none => none
        | some seg => if seg ≠ [] ∧ '/' ∉ seg then some seg else none

/-- Second attempt of the optional `/?`: consume one leading slash, then
match the rest with `matchCore`. -/
def tailSlash (cs : List Char) : Option (List Char) :=
  match cs with
  | [] => none
  | c :: rest => if c = '/' then matchCore rest else none

/-- The full anchored pattern `^/?/calico/ipam/v2/assignment/ipv./block/([^/]+)$`:
the optional leading slash is tried after the direct match fails.  Returns the
capture group, so `none` plays the role of `len(r) != 1` in the Go code. -/
def matchBlockCapture (p : String) : Option (List Char) :=
  match matchCore p.data with
  | some seg => some seg
  | none => tailSlash p.data

/-- The exact set of strings accepted by the `matchBlock` pattern: the
literal `/calico/ipam/v2/assignment/ipv`, one arbitrary non-newline
character, the literal `/block/`, and a non-empty slash-free capture — all
optionally preceded by one extra slash. -/
def IsBlockPathShape (p : String) : Prop :=
  ∃ (c : Char) (seg : List Char),
    c ≠ '\n' ∧ seg ≠ [] ∧ '/' ∉ seg ∧
    (p.data = assignLit ++ c :: (blockLit ++ seg) ∨
     p.data = '/' :: (assignLit ++ c :: (blockLit ++ seg)))

/-- Result of `BlockListOptions.KeyFromDefaultPath`.  The Go function returns
the `Key` interface: `nil` for a non-matching path (`notBlockKey`); when the
captured CIDR fails to parse it ignores the error and dereferences the nil
`*IPNet`, a runtime panic (`nilDeref`). -/
inductive DecodeResult where
  | notBlockKey
  | nilDeref
  | key (k : BlockKey)
deriving DecidableEq

/-- `BlockListOptions.KeyFromDefaultPath`: match the regular expression; on no
match return nil; otherwise undo the dash substitution (first `'-'` back to
`'/'`), parse the CIDR and build the key — with a nil dereference when the
parse fails, since the Go code discards `ParseCIDR`'s error. -/
def KeyFromDefaultPath (_options : BlockListOptions) (path : String) : DecodeResult :=
  match matchBlockCapture path with
  | none => .notBlockKey
  | some seg =>
    match parseCIDR ⟨replaceFirstChar '-' '/' seg⟩ with
    | none => .nilDeref
    | some cidr => .key ⟨cidr⟩

/-- The decode continuation applied to a capture: undo the dash, parse,
build the key or hit the nil dereference. -/
def decodeSeg (seg : List Char) : DecodeResult :=
  match parseCIDR ⟨replaceFirstChar '-' '/' seg⟩ with
  | none => .nilDeref
  | some cidr => .key ⟨cidr⟩

/-! ## The allocation ledger (`AllocationBlock`) -/

/-- `AllocationAttribute`: optional primary handle and a secondary string map
(modelled as an association list). -/
structure AllocationAttribute where
  AttrPrimary : Option String
  AttrSecondary : List (String × String)
deriving DecidableEq

/-- `AllocationBlock`: the allocation state of one CIDR. -/
structure AllocationBlock where
  CIDR : IPNet
  HostAffinity : Option String
  StrictAffinity : Bool
  Allocations : List (Option Nat)
  Unallocated : List Nat
  Attributes : List AllocationAttribute
deriving DecidableEq

/-! ### Serialized form (the `json:"..."` struct tags with `encoding/json`) -/

/-- A small JSON value tree. -/
inductive Json where
  | null
  | bool (b : Bool)
  | num (n : Int)
  | str (s : String)
  | arr (xs : List Json)
  | obj (fields : List (String × Json))

/-- Optional string: `null` or a string, as `encoding/json` emits `*string`. -/
def encodeOptStr : Option String → Json
  | none => .null
  | some s => .str s

/-- One `Allocations` entry: `null` or the attribute index, as `*int`. -/
def encodeEntry : Option Nat → Json
  | none => .null
  | some j => .num (Int.ofNat j)

/-- The secondary map as a JSON object. -/
def encodeSecondary (m : List (String × String)) : Json :=
  .obj (m.map fun p => (p.1, .str p.2))

/-- An `AllocationAttribute` under its struct tags `handle_id` / `secondary`. -/
def encodeAttribute (a : AllocationAttribute) : Json :=
  .obj [("handle_id", encodeOptStr a.AttrPrimary), ("secondary", encodeSecondary a.AttrSecondary)]

/-- An `AllocationBlock` under its struct tags; the CIDR marshals as its
string form (libcalico `IPNet.MarshalJSON`). -/
def encodeAllocationBlock (b : AllocationBlock) : Json :=
  .obj
    [("cidr", .str (ipnetString b.CIDR)),
     ("hostAffinity", encodeOptStr b.HostAffinity),
     ("strictAffinity", .bool b.StrictAffinity),
     ("allocations", .arr (b.Allocations.map encodeEntry)),
     ("unallocated", .arr (b.Unallocated.map fun n => .num (Int.ofNat n))),
     ("attributes", .arr (b.Attributes.map encodeAttribute))]

/-- Keys of a JSON object, in order. -/
def objKeys : Json → List String
  | .obj fields => fields.map Prod.fst
  | _ => []

/-- Look up a field of a JSON object. -/
def fieldOf (j : Json) (k : String) : Json :=
  match j with
  | .obj fields => ((fields.find? fun p => p.1 = k).map Prod.snd).getD .null
  | _ => .null

/-- Whether a JSON value is an array. -/
def isArr : Json → Bool
  | .arr _ => true
  | _ => false

/-- Elements of a JSON array. -/
def arrElems : Json → List Json
  | .arr xs => xs
  | _ => []

/-- Whether a JSON value is `null` or an integer. -/
def isIntOrNull : Json → Bool
  | .null => true
  | .num _ => true
  | _ => false

/-- Whether a JSON value is an integer. -/
def isInt : Json → Bool
  | .num _ => true
  | _ => false

/-! ### Ledger invariant and operations

The allocation, release and compaction algorithms live outside this
repository's sources (only the `AllocationBlock` shape is present), so they
are modelled from the specification, §4.3. -/

/-- The partition invariant: `Unallocated` lists (without duplicates) exactly
the in-range ordinals whose `Allocations` entry is empty. -/
def PartitionInv (b : AllocationBlock) : Prop :=
  b.Unallocated.Nodup ∧
  (∀ i ∈ b.Unallocated, b.Allocations[i]? = some none) ∧
  (∀ i < b.Allocations.length, b.Allocations[i]? = some none → i ∈ b.Unallocated)

instance (b : AllocationBlock) : Decidable (PartitionInv b) := by
  unfold PartitionInv; infer_instance

/-- Modelled from the spec: a freshly claimed block for a CIDR with `n`
usable addresses has empty `Allocations`, full `Unallocated`, empty
`Attributes` (§3, lifecycle). -/
def newBlock (cidr : IPNet) (n : Nat) : AllocationBlock :=
  { CIDR := cidr
    HostAffinity := none
    StrictAffinity := false
    Allocations := List.replicate n none
    Unallocated := List.range n
    Attributes := [] }

/-- Modelled from the spec: `Allocate` (§4.3) — refuse with
`AffinityViolation` when strict affinity binds the block to another host;
otherwise pop up to `count` ordinals from the front of `Unallocated`
(deterministic lowest-position-first policy), reuse or append the attribute
record for `(handleID, secondary)`, and point each claimed ordinal at it. -/
def allocate (b : AllocationBlock) (count : Nat) (handleID : Option String)
    (secondary : List (String × String)) (hostID : String) :
    Except ErrKind (List Nat × AllocationBlock) :=
  if b.StrictAffinity = true ∧ b.HostAffinity ≠ none ∧ b.HostAffinity ≠ some hostID then
    .error .affinityViolation
  else
    let rec0 : AllocationAttribute := ⟨handleID, secondary⟩
    let sel := b.Unallocated.take count
    let idx :=
      match b.Attributes.findIdx? fun r => decide (r = rec0) with
      | some j => j
      | none => b.Attributes.length
    let attrs :=
      match b.Attributes.findIdx? fun r => decide (r = rec0) with
      | some _ => b.Attributes
      | none => b.Attributes ++ [rec0]
    .ok (sel,
      { b with
        Allocations := sel.foldl (fun a o => a.set o (some idx)) b.Allocations
        Unallocated := b.Unallocated.drop count
        Attributes := attrs })

/-- Modelled from the spec: release of a single ordinal (§4.3) — an already
free (or out-of-range) ordinal is an `AlreadyUnallocated` error; otherwise
the entry is cleared and the ordinal returns to `Unallocated`. -/
def releaseOne (b : AllocationBlock) (o : Nat) : Except ErrKind AllocationBlock :=
  match b.Allocations[o]? with
  | some (some _) =>
    .ok { b with Allocations := b.Allocations.set o none, Unallocated := b.Unallocated ++ [o] }
  | _ => .error (.alreadyUnallocated o)

/-- Modelled from the spec: `Release` (§4.3) — best-effort across the batch,
collecting per-ordinal errors instead of aborting. -/
def release (b : AllocationBlock) (ordinals : List Nat) : AllocationBlock × List ErrKind :=
  ordinals.foldl
    (fun s o =>
      match releaseOne s.1 o with
      | .ok b2 => (b2, s.2)
      | .error e => (s.1, s.2 ++ [e]))
    (b, [])

/-- Modelled from the spec: `Compact` (§4.3) — drop attribute records no
ordinal references and renumber the surviving indices inside `Allocations`. -/
def compact (b : AllocationBlock) : AllocationBlock :=
  let kept := (List.range b.Attributes.length).filter fun j => b.Allocations.contains (some j)
  { b with
    Attributes := kept.filterMap fun j => b.Attributes[j]?
    Allocations := b.Allocations.map (Option.map fun j => kept.indexOf j) }

/-! ## Helper lemmas -/

/-- `all` holds on a mapped list when it holds on every image. -/
theorem all_map_of {α : Type} (f : α → Json) (q : Json → Bool)
    (h : ∀ x, q (f x) = true) (l : List α) : (l.map f).all q = true := by
  induction l with
  | nil => rfl
  | cons x xs ih => simp [List.all_cons, h x, ih]

/-- Associativity of string append, through the underlying character lists. -/
theorem strAppendAssoc (a b c : String) : a ++ b ++ c = a ++ (b ++ c) :=
  String.ext (by simp [String.data_append, List.append_assoc])

/-! ## Characterisation of the `matchBlock` pattern -/

/-- `dropLead` succeeds exactly on lists beginning with the pattern. -/
theorem dropLead_eq_some (pat : List Char) :
    ∀ s r, dropLead pat s = some r ↔ s = pat ++ r := by
  induction pat with
  | nil => intro s r; simp [dropLead, eq_comm]
  | cons p ps ih =>
    intro s r
    cases s with
    | nil => simp [dropLead]
    | cons c cs =>
      by_cases h : c = p
      · simp [dropLead, h, ih]
      · simp [dropLead, h]

/-- `matchCore` succeeds exactly on the fixed-literal shape with a single
non-newline version character and a non-empty slash-free tail capture. -/
theorem matchCore_eq_some (s seg : List Char) :
    matchCore s = some seg ↔
      ∃ c, c ≠ '\n' ∧ seg ≠ [] ∧ '/' ∉ seg ∧ s = assignLit ++ c :: (blockLit ++ seg) := by
  unfold matchCore
  cases h1 : dropLead assignLit s with
  | none =>
    simp only
    constructor
    · intro h; exact Option.noConfusion h
    · rintro ⟨c, _, _, _, hs⟩
      have := (dropLead_eq_some assignLit s (c :: (blockLit ++ seg))).mpr hs
      rw [h1] at this
      exact Option.noConfusion this
  | some rest =>
    have hs : s = assignLit ++ rest := (dropLead_eq_some assignLit s rest).mp h1
    cases rest with
    | nil =>
      simp only
      constructor
      · intro h; exact Option.noConfusion h
      · rintro ⟨c, _, _, _, hs2⟩
        rw [hs] at hs2
        have := List.append_cancel_left hs2
        exact List.noConfusion this
    | cons c0 rest2 =>
      by_cases hnl : c0 = '\n'
      · simp only [if_pos hnl]
        constructor
        · intro h; exact Option.noConfusion h
        · rintro ⟨c, hc, _, _, hs2⟩
          rw [hs] at hs2
          have h3 := List.append_cancel_left hs2
          have : c0 = c := (List.cons.injEq _ _ _ _ ▸ h3).1
          exact (hc (this ▸ hnl)).elim
      · simp only [if_neg hnl]
        cases h2 : dropLead blockLit rest2 with
        | none =>
          simp only
          constructor
          · intro h; exact Option.noConfusion h
          · rintro ⟨c, _, _, _, hs2⟩
            rw [hs] at hs2
            have h3 := List.append_cancel_left hs2
            have hc0 : c0 = c ∧ rest2 = blockLit ++ seg := by
              have := List.cons.injEq c0 rest2 c (blockLit ++ seg) ▸ h3
              exact this
            have := (dropLead_eq_some blockLit rest2 seg).mpr hc0.2
            rw [h2] at this
            exact Option.noConfusion this
        | some seg0 =>
          have hr : rest2 = blockLit ++ seg0 := (dropLead_eq_some blockLit rest2 seg0).mp h2
          by_cases hok : seg0 ≠ [] ∧ '/' ∉ seg0
          · simp only [if_pos hok, Option.some.injEq]
            constructor
            · rintro rfl
              exact ⟨c0, hnl, hok.1, hok.2, by rw [hs, hr]⟩
            · rintro ⟨c, _, _, _, hs2⟩
              rw [hs, hr] at hs2
              have h3 := List.append_cancel_left hs2
              have h5 : blockLit ++ seg0 = blockLit ++ seg :=
                (List.cons.injEq c0 (blockLit ++ seg0) c (blockLit ++ seg) ▸ h3).2
              exact (List.append_cancel_left h5).symm ▸ rfl
          · simp only [if_neg hok]
            constructor
            · intro h; exact Option.noConfusion h
            · rintro ⟨c, _, hne, hsl, hs2⟩
              rw [hs, hr] at hs2
              have h3 := List.append_cancel_left hs2
              have h5 : blockLit ++ seg0 = blockLit ++ seg :=
                (List.cons.injEq c0 (blockLit ++ seg0) c (blockLit ++ seg) ▸ h3).2
              have : seg0 = seg := List.append_cancel_left h5
              exact (hok ⟨this ▸ hne, this ▸ hsl⟩).elim

/-- A string starting with two slashes never matches `matchCore` (the fixed
literal continues with `calico`). -/
theorem matchCore_double_slash (r : List Char) : matchCore ('/' :: '/' :: r) = none := rfl

/-- When `matchCore` already succeeds on the whole path, the capture is its
result. -/
theorem matchBlockCapture_of_core {p : String} {seg : List Char}
    (h : matchCore p.data = some seg) : matchBlockCapture p = some seg := by
  unfold matchBlockCapture
  rw [h]

/-- Full characterisation of the anchored pattern with the optional leading
slash. -/
theorem matchBlockCapture_eq_some (p : String) (seg : List Char) :
    matchBlockCapture p = some seg ↔
      ∃ c, c ≠ '\n' ∧ seg ≠ [] ∧ '/' ∉ seg ∧
        (p.data = assignLit ++ c :: (blockLit ++ seg) ∨
         p.data = '/' :: (assignLit ++ c :: (blockLit ++ seg))) := by
  cases hm : matchCore p.data with
  | some seg0 =>
    have hcap : matchBlockCapture p = some seg0 := by
      unfold matchBlockCapture; rw [hm]
    rw [hcap]
    simp only [Option.some.injEq]
    constructor
    · rintro rfl
      obtain ⟨c, hc, hne, hsl, hshape⟩ := (matchCore_eq_some p.data seg0).mp hm
      exact ⟨c, hc, hne, hsl, Or.inl hshape⟩
    · rintro ⟨c, hc, hne, hsl, hd | hd⟩
      · have := (matchCore_eq_some p.data seg).mpr ⟨c, hc, hne, hsl, hd⟩
        rw [hm] at this
        exact Option.some.injEq _ _ ▸ this
      · rw [show assignLit = '/' :: "calico/ipam/v2/assignment/ipv".data from rfl,
          List.cons_append] at hd
        rw [hd] at hm
        exact Option.noConfusion (matchCore_double_slash _ ▸ hm)
  | none =>
    have hcap : matchBlockCapture p = tailSlash p.data := by
      unfold matchBlockCapture; rw [hm]
    rw [hcap]
    cases hp : p.data with
    | nil =>
      simp only [tailSlash]
      constructor
      · intro h; exact Option.noConfusion h
      · rintro ⟨c, _, _, _, hd | hd⟩ <;> simp [assignLit] at hd
    | cons c0 cs =>
      rw [hp] at hm
      simp only [tailSlash]
      by_cases hsl0 : c0 = '/'
      · subst hsl0
        rw [if_pos rfl]
        constructor
        · intro h
          obtain ⟨c, hc, hne, hsl, hshape⟩ := (matchCore_eq_some cs seg).mp h
          exact ⟨c, hc, hne, hsl, Or.inr (by rw [hshape])⟩
        · rintro ⟨c, hc, hne, hsl, hd | hd⟩
          · have := (matchCore_eq_some ('/' :: cs) seg).mpr ⟨c, hc, hne, hsl, hd⟩
            rw [hm] at this
            exact Option.noConfusion this
          · have hcs : cs = assignLit ++ c :: (blockLit ++ seg) :=
              (List.cons.injEq _ _ _ _ ▸ hd).2
            exact (matchCore_eq_some cs seg).mpr ⟨c, hc, hne, hsl, hcs⟩
      · rw [if_neg hsl0]
        constructor
        · intro h; exact Option.noConfusion h
        · rintro ⟨c, hc, hne, hsl, hd | hd⟩
          · have := (matchCore_eq_some (c0 :: cs) seg).mpr ⟨c, hc, hne, hsl, hd⟩
            rw [hm] at this
            exact Option.noConfusion this
          · have hc0 : c0 = '/' := (List.cons.injEq _ _ _ _ ▸ hd).1
            exact absurd hc0 hsl0

/-- The shape predicate holds exactly when the pattern produces a capture. -/
theorem shape_iff_capture (p : String) :
    IsBlockPathShape p ↔ ∃ seg, matchBlockCapture p = some seg := by
  constructor
  · rintro ⟨c, seg, hc, hne, hsl, hd⟩
    exact ⟨seg, (matchBlockCapture_eq_some p seg).mpr ⟨c, hc, hne, hsl, hd⟩⟩
  · rintro ⟨seg, h⟩
    obtain ⟨c, hc, hne, hsl, hd⟩ := (matchBlockCapture_eq_some p seg).mp h
    exact ⟨c, seg, hc, hne, hsl, hd⟩

/-! ## Characters appearing in rendered CIDRs -/

/-- Digit characters are neither `'/'` nor `'-'`. -/
theorem digitChar_ok : ∀ n < 16, Nat.digitChar n ≠ '/' ∧ Nat.digitChar n ≠ '-' := by decide

/-- All characters produced by the digit accumulator are safe, given a safe
accumulator and a base of at most 16. -/
theorem toCharsCore_ok (b : Nat) (hb0 : 0 < b) (hb : b ≤ 16) :
    ∀ fuel n acc, (∀ c ∈ acc, c ≠ '/' ∧ c ≠ '-') →
      ∀ c ∈ toCharsCore b fuel n acc, c ≠ '/' ∧ c ≠ '-' := by
  intro fuel
  induction fuel with
  | zero => intro n acc hacc c hc; exact hacc c hc
  | succ f ih =>
    intro n acc hacc c hc
    have hdig : ∀ c ∈ Nat.digitChar (n % b) :: acc, c ≠ '/' ∧ c ≠ '-' := by
      intro c' hc'
      rcases List.mem_cons.mp hc' with h | h
      · exact h ▸ digitChar_ok (n % b) (lt_of_lt_of_le (Nat.mod_lt n hb0) hb)
      · exact hacc c' h
    simp only [toCharsCore] at hc
    by_cases hn : n < b
    · rw [if_pos hn] at hc
      exact hdig c hc
    · rw [if_neg hn] at hc
      exact ih (n / b) (Nat.digitChar (n % b) :: acc) hdig c hc

/-- Decimal renderings avoid `'/'` and `'-'`. -/
theorem toChars10_ok (n : Nat) : ∀ c ∈ toChars10 n, c ≠ '/' ∧ c ≠ '-' :=
  toCharsCore_ok 10 (by decide) (by decide) (n + 1) n [] (by intro c h; cases h)

/-- Hexadecimal renderings avoid `'/'` and `'-'`. -/
theorem toChars16_ok (n : Nat) : ∀ c ∈ toChars16 n, c ≠ '/' ∧ c ≠ '-' :=
  toCharsCore_ok 16 (by decide) (by decide) (n + 1) n [] (by intro c h; cases h)

/-- Dotted-quad renderings avoid `'/'` and `'-'`. -/
theorem v4Chars_ok (a b c d : Nat) : ∀ ch ∈ v4Chars a b c d, ch ≠ '/' ∧ ch ≠ '-' := by
  intro ch hch
  rw [v4Chars] at hch
  rcases List.mem_append.mp hch with h3 | h
  · rcases List.mem_append.mp h3 with h2 | h
    · rcases List.mem_append.mp h2 with h1 | h
      · exact toChars10_ok a ch h1
      · rcases List.mem_cons.mp h with he | he
        · exact he ▸ (by decide)
        · exact toChars10_ok b ch he
    · rcases List.mem_cons.mp h with he | he
      · exact he ▸ (by decide)
      · exact toChars10_ok c ch he
  · rcases List.mem_cons.mp h with he | he
    · exact he ▸ (by decide)
    · exact toChars10_ok d ch he

/-- Joined group renderings avoid `'/'` and `'-'` when every group does. -/
theorem joinColon_ok :
    ∀ parts : List (List Char), (∀ p ∈ parts, ∀ c ∈ p, c ≠ '/' ∧ c ≠ '-') →
      ∀ c ∈ joinColon parts, c ≠ '/' ∧ c ≠ '-' := by
  intro parts
  induction parts with
  | nil => intro _ c hc; cases hc
  | cons x xs ih =>
    intro hp c hc
    cases xs with
    | nil => exact hp x (List.mem_cons_self x []) c hc
    | cons y ys =>
      simp only [joinColon, List.mem_append, List.mem_cons] at hc
      rcases hc with h | h | h
      · exact hp x (List.mem_cons_self x _) c h
      · exact h ▸ (by decide)
      · exact ih (fun p hmem => hp p (List.mem_cons_of_mem x hmem)) c
          (by simpa [joinColon] using h)

/-- IPv6 renderings avoid `'/'` and `'-'`. -/
theorem ipv6Chars_ok (gs : List Nat) : ∀ c ∈ ipv6Chars gs, c ≠ '/' ∧ c ≠ '-' := by
  intro c hc
  have hmap : ∀ l : List Nat, ∀ p ∈ l.map toChars16, ∀ c ∈ p, c ≠ '/' ∧ c ≠ '-' := by
    intro l p hp c' hc'
    obtain ⟨g, _, rfl⟩ := List.mem_map.mp hp
    exact toChars16_ok g c' hc'
  unfold ipv6Chars at hc
  cases hbr : bestRun gs with
  | none =>
    rw [hbr] at hc
    exact joinColon_ok _ (hmap gs) c hc
  | some p =>
    rw [hbr] at hc
    simp only [List.mem_append, List.mem_cons] at hc
    rcases hc with h | h | h | h
    · exact joinColon_ok _ (hmap _) c h
    · exact h ▸ (by decide)
    · exact h ▸ (by decide)
    · exact joinColon_ok _ (hmap _) c h

/-- Rendered IP addresses avoid `'/'` and `'-'`. -/
theorem ipChars_ok (a : IPAddr) : ∀ c ∈ a.chars, c ≠ '/' ∧ c ≠ '-' := by
  cases a with
  | v4 x y z w => exact v4Chars_ok x y z w
  | v6 g0 g1 g2 g3 g4 g5 g6 g7 => exact ipv6Chars_ok _

/-- `IPNet.String` with a set address splits as address, slash, prefix. -/
theorem ipnetChars_some (n : IPNet) (a : IPAddr) (h : n.ip = some a) :
    ipnetChars n = a.chars ++ '/' :: toChars10 n.prefixLen := by
  simp [ipnetChars, h]

/-- Replacing the first occurrence in `xs ++ a :: ys` when `a ∉ xs`. -/
theorem replaceFirst_append (a b : Char) (xs ys : List Char) (hx : a ∉ xs) :
    replaceFirstChar a b (xs ++ a :: ys) = xs ++ b :: ys := by
  induction xs with
  | nil => simp [replaceFirstChar]
  | cons x xt ih =>
    have hxa : x ≠ a := fun h => hx (h ▸ List.mem_cons_self x xt)
    have hxs : a ∉ xt := fun h => hx (List.mem_cons_of_mem x h)
    simp [replaceFirstChar, hxa, ih hxs]

/-- Every CIDR produced by `parseCIDR` has a set address. -/
theorem parseCIDR_ip_isSome (s : String) (m : IPNet) (h : parseCIDR s = some m) :
    ∃ a, m.ip = some a := by
  unfold parseCIDR at h
  split at h
  · exact Option.noConfusion h
  · split at h
    · exact Option.noConfusion h
    · split at h
      · split at h
        · injection h with h2
          subst h2
          exact ⟨_, rfl⟩
        · exact Option.noConfusion h
      · split at h
        · split at h
          · injection h with h2
            subst h2
            exact ⟨_, rfl⟩
          · exact Option.noConfusion h
        · exact Option.noConfusion h

/-- `KeyFromDefaultPath` is `decodeSeg` of the capture when the pattern
matches. -/
theorem keyFromDefaultPath_capture (o : BlockListOptions) (p : String) (seg : List Char)
    (h : matchBlockCapture p = some seg) : KeyFromDefaultPath o p = decodeSeg seg := by
  unfold KeyFromDefaultPath decodeSeg
  rw [h]

/-- `defaultPath` on a key with a set address. -/
theorem defaultPath_some (k : BlockKey) (a : IPAddr) (h : k.CIDR.ip = some a) :
    defaultPath k =
      .ok ("/calico/ipam/v2/assignment/ipv" ++ natStr k.CIDR.version ++ "/block/" ++
        strReplaceFirst (ipnetString k.CIDR) '/' '-') := by
  unfold defaultPath
  rw [h]

/-! ## Claim theorems: decoding -/

/-- Claim C5 (amended): `KeyFromDefaultPath` treats a path as a block key
exactly when it is the literal `/calico/ipam/v2/assignment/ipv`, one
arbitrary character other than newline (not only `4` or `6` — the pattern
uses `ipv.`), the literal `/block/` and a non-empty slash-free segment,
optionally preceded by one extra leading slash (the pattern's `^/?`); every
other path yields the "not a block key" result. -/
theorem c5_match_exact_shape :
    ∀ (o : BlockListOptions) (p : String),
      KeyFromDefaultPath o p ≠ .notBlockKey ↔ IsBlockPathShape p := by
  intro o p
  unfold KeyFromDefaultPath
  cases h : matchBlockCapture p with
  | none =>
    simp only
    constructor
    · intro hne; exact absurd rfl hne
    · intro hs
      obtain ⟨seg, hcap⟩ := (shape_iff_capture p).mp hs
      rw [h] at hcap
      exact Option.noConfusion hcap
  | some seg =>
    constructor
    · intro _
      exact (shape_iff_capture p).mpr ⟨seg, h⟩
    · intro _
      cases hpc : parseCIDR ⟨replaceFirstChar '-' '/' seg⟩ with
      | none => simp [hpc]
      | some cidr => simp [hpc]

/-- Counterexample for C5 as stated: a path whose IP-version segment is the
non-literal `ipv7` is accepted and decoded into a key, and so is a path with
a doubled leading slash. -/
theorem c5_match_exact_shape_counterexample :
    KeyFromDefaultPath ⟨0⟩ "/calico/ipam/v2/assignment/ipv7/block/10.0.0.0-24" =
      .key ⟨⟨some (.v4 10 0 0 0), 24⟩⟩ ∧
    KeyFromDefaultPath ⟨0⟩ "//calico/ipam/v2/assignment/ipv4/block/10.0.0.0-24" =
      .key ⟨⟨some (.v4 10 0 0 0), 24⟩⟩ := ⟨rfl, rfl⟩

/-- Claim C3: every path that does not match the block pattern decodes to
the "not a block key" result — never a failure (and never a panic). -/
theorem c3_nonmatching_is_not_block_key :
    ∀ (o : BlockListOptions) (p : String),
      ¬IsBlockPathShape p → KeyFromDefaultPath o p = .notBlockKey := by
  intro o p h
  cases hm : matchBlockCapture p with
  | none => unfold KeyFromDefaultPath; rw [hm]
  | some seg => exact absurd ((shape_iff_capture p).mpr ⟨seg, hm⟩) h

/-- Witness for C3 at the non-matching path `/foo`. -/
theorem c3_nonmatching_is_not_block_key_witness :
    KeyFromDefaultPath ⟨0⟩ "/foo" = .notBlockKey :=
  c3_nonmatching_is_not_block_key ⟨0⟩ "/foo" fun hs => by
    obtain ⟨seg, hcap⟩ := (shape_iff_capture "/foo").mp hs
    rw [show matchBlockCapture "/foo" = none from rfl] at hcap
    exact Option.noConfusion hcap

/-! ## Claim theorems: the easy path functions -/

/-- Claim C10: the delete path of a block key is exactly its encode path —
`defaultDeletePath` returns the same string and the same error as
`defaultPath` on every key. -/
theorem c10_delete_path_eq_default_path :
    ∀ k : BlockKey, defaultDeletePath k = defaultPath k := fun _ => rfl

/-- Claim C7: `defaultPathRoot` is total; it returns
`/calico/ipam/v2/assignment/` for IP version 0 and
`/calico/ipam/v2/assignment/ipv{N}/` for any other version `N`. -/
theorem c7_default_path_root :
    ∀ o : BlockListOptions,
      (o.IPVersion = 0 → defaultPathRoot o = "/calico/ipam/v2/assignment/") ∧
      (o.IPVersion ≠ 0 →
        defaultPathRoot o = "/calico/ipam/v2/assignment/ipv" ++ intStr o.IPVersion ++ "/") := by
  intro o
  constructor
  · intro h; simp [defaultPathRoot, h]
  · intro h
    simp only [defaultPathRoot, if_pos h]
    rw [show ("/calico/ipam/v2/assignment/ipv" : String) =
        "/calico/ipam/v2/assignment/" ++ "ipv" from rfl,
      strAppendAssoc, strAppendAssoc]
    exact (strAppendAssoc _ _ _).symm

/-- Witness for C7 at the versions 0 and 6. -/
theorem c7_default_path_root_witness :
    defaultPathRoot ⟨0⟩ = "/calico/ipam/v2/assignment/" ∧
    defaultPathRoot ⟨6⟩ = "/calico/ipam/v2/assignment/ipv" ++ intStr 6 ++ "/" :=
  ⟨(c7_default_path_root ⟨0⟩).1 rfl, (c7_default_path_root ⟨6⟩).2 (by decide)⟩

/-- Claim C6: `defaultPath` fails — necessarily with
`InsufficientIdentifiers` — exactly when the CIDR's IP is unset; when it is
set an encoded path is produced instead. -/
theorem c6_insufficient_identifiers_iff :
    ∀ k : BlockKey,
      (defaultPath k = .error .insufficientIdentifiers ↔ k.CIDR.ip = none) ∧
      (∀ e, defaultPath k = .error e → e = .insufficientIdentifiers) := by
  intro k
  cases h : k.CIDR.ip with
  | none => simp [defaultPath, h]
  | some a => simp [defaultPath, h]

/-- Witness for C6 at an unset and a set CIDR. -/
theorem c6_insufficient_identifiers_iff_witness :
    defaultPath ⟨⟨none, 0⟩⟩ = .error .insufficientIdentifiers ∧
    ¬defaultPath ⟨⟨some (.v4 10 0 0 0), 30⟩⟩ = .error .insufficientIdentifiers :=
  ⟨(c6_insufficient_identifiers_iff ⟨⟨none, 0⟩⟩).1.mpr rfl,
   fun h => by
    have := (c6_insufficient_identifiers_iff ⟨⟨some (.v4 10 0 0 0), 30⟩⟩).1.mp h
    exact Option.noConfusion this⟩

/-- Claim C2: for a set CIDR, `defaultPath` yields exactly the literal
`/calico/ipam/v2/assignment/ipv{4|6}/block/` followed by the CIDR string
with its first slash replaced by a dash; in particular `10.0.0.0/30`
encodes to `/calico/ipam/v2/assignment/ipv4/block/10.0.0.0-30`. -/
theorem c2_encode_shape :
    (∀ (k : BlockKey) (a : IPAddr), k.CIDR.ip = some a →
      defaultPath k =
        .ok ("/calico/ipam/v2/assignment/ipv" ++ natStr k.CIDR.version ++ "/block/" ++
          strReplaceFirst (ipnetString k.CIDR) '/' '-') ∧
      (k.CIDR.version = 4 ∨ k.CIDR.version = 6)) ∧
    defaultPath ⟨⟨some (.v4 10 0 0 0), 30⟩⟩ =
      .ok "/calico/ipam/v2/assignment/ipv4/block/10.0.0.0-30" := by
  constructor
  · intro k a h
    refine ⟨by simp [defaultPath, h], ?_⟩
    cases a <;> simp [IPNet.version, h, IPAddr.version]
  · rfl

/-- Witness for C2 at the CIDR 10.0.0.0/30. -/
theorem c2_encode_shape_witness :
    defaultPath ⟨⟨some (.v4 10 0 0 0), 30⟩⟩ =
      .ok ("/calico/ipam/v2/assignment/ipv" ++
        natStr (IPNet.version ⟨some (.v4 10 0 0 0), 30⟩) ++ "/block/" ++
        strReplaceFirst (ipnetString ⟨some (.v4 10 0 0 0), 30⟩) '/' '-') ∧
    (IPNet.version ⟨some (.v4 10 0 0 0), 30⟩ = 4 ∨
      IPNet.version ⟨some (.v4 10 0 0 0), 30⟩ = 6) :=
  c2_encode_shape.1 ⟨⟨some (.v4 10 0 0 0), 30⟩⟩ (.v4 10 0 0 0) rfl

/-- Claim C4: the code does not report a decode failure on a matched path
whose segment is not a CIDR — it discards `ParseCIDR`'s error and
dereferences the nil result, a runtime panic.  Evaluating the model at the
failing input exhibits the nil dereference. -/
theorem c4_parse_failure_nil_deref :
    KeyFromDefaultPath ⟨0⟩ "/calico/ipam/v2/assignment/ipv4/block/garbage" =
      .nilDeref := rfl

/-- Claim C8: the serialized ledger uses exactly the persisted field names
`cidr`, `hostAffinity`, `strictAffinity`, `allocations` (an array of
nullable integers), `unallocated` (an array of integers) and `attributes`
(an array of `handle_id`/`secondary` records), for every block value. -/
theorem c8_wire_format :
    ∀ b : AllocationBlock,
      objKeys (encodeAllocationBlock b) =
        ["cidr", "hostAffinity", "strictAffinity", "allocations", "unallocated",
          "attributes"] ∧
      isArr (fieldOf (encodeAllocationBlock b) "allocations") = true ∧
      (arrElems (fieldOf (encodeAllocationBlock b) "allocations")).all isIntOrNull = true ∧
      isArr (fieldOf (encodeAllocationBlock b) "unallocated") = true ∧
      (arrElems (fieldOf (encodeAllocationBlock b) "unallocated")).all isInt = true ∧
      isArr (fieldOf (encodeAllocationBlock b) "attributes") = true ∧
      (arrElems (fieldOf (encodeAllocationBlock b) "attributes")).all
        (fun a => decide (objKeys a = ["handle_id", "secondary"])) = true := by
  intro b
  refine ⟨rfl, rfl, ?_, rfl, ?_, rfl, ?_⟩
  · exact all_map_of _ _ (fun x => by cases x <;> rfl) _
  · exact all_map_of _ _ (fun x => rfl) _
  · exact all_map_of _ _ (fun x => by simp [encodeAttribute, objKeys]) _

/-! ## Claim theorems: the round trip -/

/-- Claim C1 (amended): for every BlockKey whose CIDR is set and canonical —
parsing the CIDR's own string form returns it unchanged, i.e. the address is
the masked network address and the prefix length is in range — decoding the
encoded path yields the key back.  (A set but non-canonical CIDR such as
10.0.0.1/24 re-parses to its masked network and does not round-trip.) -/
theorem c1_round_trip_canonical :
    ∀ (k : BlockKey) (o : BlockListOptions) (s : String),
      parseCIDR (ipnetString k.CIDR) = some k.CIDR →
      defaultPath k = .ok s →
      KeyFromDefaultPath o s = .key k := by
  intro k o s hcan hok
  obtain ⟨a, hip⟩ := parseCIDR_ip_isSome _ _ hcan
  rw [defaultPath_some k a hip] at hok
  injection hok with hs
  subst hs
  have hnos : '/' ∉ a.chars := fun h => (ipChars_ok a '/' h).1 rfl
  have hnod : '-' ∉ a.chars := fun h => (ipChars_ok a '-' h).2 rfl
  have hsegd : (strReplaceFirst (ipnetString k.CIDR) '/' '-').data =
      a.chars ++ '-' :: toChars10 k.CIDR.prefixLen := by
    show replaceFirstChar '/' '-' (ipnetString k.CIDR).data = _
    rw [show (ipnetString k.CIDR).data = ipnetChars k.CIDR from rfl,
      ipnetChars_some _ _ hip]
    exact replaceFirst_append '/' '-' _ _ hnos
  have hnosseg : '/' ∉ a.chars ++ '-' :: toChars10 k.CIDR.prefixLen := by
    intro h
    rcases List.mem_append.mp h with h | h
    · exact hnos h
    · rcases List.mem_cons.mp h with h | h
      · exact absurd h (by decide)
      · exact (toChars10_ok _ '/' h).1 rfl
  have hne : a.chars ++ '-' :: toChars10 k.CIDR.prefixLen ≠ [] := by simp
  have hund : (⟨replaceFirstChar '-' '/'
      (a.chars ++ '-' :: toChars10 k.CIDR.prefixLen)⟩ : String) = ipnetString k.CIDR := by
    rw [replaceFirst_append '-' '/' _ _ hnod]
    rw [show ipnetString k.CIDR = ⟨ipnetChars k.CIDR⟩ from rfl, ipnetChars_some _ _ hip]
  have hver : k.CIDR.version = 4 ∨ k.CIDR.version = 6 := by
    cases a with
    | v4 _ _ _ _ => left; simp [IPNet.version, hip, IPAddr.version]
    | v6 _ _ _ _ _ _ _ _ => right; simp [IPNet.version, hip, IPAddr.version]
  have finish : ∀ ch : Char, (natStr k.CIDR.version).data = [ch] → ch ≠ '\n' →
      KeyFromDefaultPath o
        ("/calico/ipam/v2/assignment/ipv" ++ natStr k.CIDR.version ++ "/block/" ++
          strReplaceFirst (ipnetString k.CIDR) '/' '-') = .key k := by
    intro ch hch hchn
    have hdata : ("/calico/ipam/v2/assignment/ipv" ++ natStr k.CIDR.version ++ "/block/" ++
        strReplaceFirst (ipnetString k.CIDR) '/' '-').data =
        assignLit ++ ch :: (blockLit ++ (a.chars ++ '-' :: toChars10 k.CIDR.prefixLen)) := by
      simp only [String.data_append, hch, hsegd]
      simp [assignLit, blockLit, List.append_assoc]
    have hcap := matchBlockCapture_of_core
      ((matchCore_eq_some _ _).mpr ⟨ch, hchn, hne, hnosseg, hdata⟩)
    rw [keyFromDefaultPath_capture o _ _ hcap]
    unfold decodeSeg
    rw [hund, hcan]
  rcases hver with hv | hv
  · exact finish '4' (by rw [hv]; rfl) (by decide)
  · exact finish '6' (by rw [hv]; rfl) (by decide)

/-- Witness for C1 at the canonical CIDR 10.0.0.0/30. -/
theorem c1_round_trip_canonical_witness :
    parseCIDR (ipnetString ⟨some (.v4 10 0 0 0), 30⟩) = some ⟨some (.v4 10 0 0 0), 30⟩ ∧
    defaultPath ⟨⟨some (.v4 10 0 0 0), 30⟩⟩ =
      .ok "/calico/ipam/v2/assignment/ipv4/block/10.0.0.0-30" ∧
    KeyFromDefaultPath ⟨0⟩ "/calico/ipam/v2/assignment/ipv4/block/10.0.0.0-30" =
      .key ⟨⟨some (.v4 10 0 0 0), 30⟩⟩ :=
  ⟨rfl, rfl, c1_round_trip_canonical ⟨⟨some (.v4 10 0 0 0), 30⟩⟩ ⟨0⟩ _ rfl rfl⟩

/-- Counterexample for C1 as stated over all set CIDRs: the key 10.0.0.1/24
has its CIDR set, yet decoding its encoded path returns the masked network
10.0.0.0/24, a different key. -/
theorem c1_round_trip_counterexample :
    defaultPath ⟨⟨some (.v4 10 0 0 1), 24⟩⟩ =
      .ok "/calico/ipam/v2/assignment/ipv4/block/10.0.0.1-24" ∧
    KeyFromDefaultPath ⟨0⟩ "/calico/ipam/v2/assignment/ipv4/block/10.0.0.1-24" =
      .key ⟨⟨some (.v4 10 0 0 0), 24⟩⟩ ∧
    (⟨⟨some (.v4 10 0 0 0), 24⟩⟩ : BlockKey) ≠ ⟨⟨some (.v4 10 0 0 1), 24⟩⟩ :=
  ⟨rfl, rfl, by decide⟩

/-! ## Claim theorems: the ledger partition invariant -/

/-- Setting many entries with a fold keeps the length. -/
theorem foldl_set_length (sel : List Nat) (a : List (Option Nat)) (v : Option Nat) :
    (sel.foldl (fun acc o => acc.set o v) a).length = a.length := by
  induction sel generalizing a with
  | nil => rfl
  | cons o rest ih =>
    simp only [List.foldl_cons]
    rw [ih, List.length_set]

/-- Lookup after setting many entries with a fold. -/
theorem foldl_set_getElem? (sel : List Nat) (a : List (Option Nat)) (v : Option Nat)
    (i : Nat) :
    (sel.foldl (fun acc o => acc.set o v) a)[i]? =
      if i ∈ sel ∧ i < a.length then some v else a[i]? := by
  induction sel generalizing a with
  | nil => simp
  | cons o rest ih =>
    simp only [List.foldl_cons]
    rw [ih, List.length_set, List.getElem?_set]
    by_cases hr : i ∈ rest <;> by_cases ho : o = i <;> by_cases hl : i < a.length <;>
      simp_all [List.mem_cons, List.getElem?_eq_none, Nat.le_of_not_lt] <;>
      first
        | rw [if_neg fun he : i = o => ho he.symm]
        | rw [if_neg fun hc : i = o ∧ i < a.length => absurd hc.2 (Nat.not_lt.mpr hl)]

/-- A fresh block satisfies the partition invariant. -/
theorem newBlock_inv (cidr : IPNet) (n : Nat) : PartitionInv (newBlock cidr n) := by
  refine ⟨List.nodup_range n, ?_, ?_⟩
  · intro i hi
    have : i < n := List.mem_range.mp hi
    simp [newBlock, List.getElem?_replicate, this]
  · intro i hi _
    show i ∈ List.range n
    rw [List.mem_range]
    simpa [newBlock] using hi

/-- A successful allocation preserves the partition invariant. -/
theorem allocate_ok_inv (b : AllocationBlock) (count : Nat) (hID : Option String)
    (sec : List (String × String)) (host : String) (sel : List Nat)
    (b2 : AllocationBlock) (hinv : PartitionInv b)
    (h : allocate b count hID sec host = .ok (sel, b2)) : PartitionInv b2 := by
  obtain ⟨nd, hmem, hent⟩ := hinv
  unfold allocate at h
  split at h
  · exact Except.noConfusion h
  · simp only [] at h
    injection h with h2
    injection h2 with hsel hb2
    subst hsel
    subst hb2
    have ndsplit : (b.Unallocated.take count ++ b.Unallocated.drop count).Nodup := by
      rw [List.take_append_drop]; exact nd
    obtain ⟨ndt, ndd, hdisj⟩ := List.nodup_append.mp ndsplit
    refine ⟨ndd, ?_, ?_⟩
    · intro i hi
      have hiua : i ∈ b.Unallocated := (List.drop_sublist count b.Unallocated).subset hi
      have hitake : i ∉ b.Unallocated.take count := fun ht => hdisj ht hi
      rw [foldl_set_getElem?, if_neg fun hc => hitake hc.1]
      exact hmem i hiua
    · intro i hlen hget
      rw [foldl_set_length] at hlen
      rw [foldl_set_getElem?] at hget
      by_cases hc : i ∈ b.Unallocated.take count ∧ i < b.Allocations.length
      · rw [if_pos hc] at hget
        exact Option.noConfusion (Option.some.injEq _ _ ▸ hget)
      · rw [if_neg hc] at hget
        have hiua : i ∈ b.Unallocated := hent i hlen hget
        have : i ∈ b.Unallocated.take count ++ b.Unallocated.drop count := by
          rw [List.take_append_drop]; exact hiua
        rcases List.mem_append.mp this with ht | hd
        · exact absurd ⟨ht, hlen⟩ hc
        · exact hd

/-- Releasing one allocated ordinal preserves the partition invariant. -/
theorem releaseOne_ok_inv (b : AllocationBlock) (o : Nat) (hinv : PartitionInv b)
    (b2 : AllocationBlock) (h : releaseOne b o = .ok b2) : PartitionInv b2 := by
  obtain ⟨nd, hmem, hent⟩ := hinv
  unfold releaseOne at h
  split at h
  case _ j hj =>
    injection h with hb2
    subst hb2
    have hlen : o < b.Allocations.length := by
      by_contra hlt
      rw [List.getElem?_eq_none (Nat.le_of_not_lt hlt)] at hj
      exact Option.noConfusion hj
    have honot : o ∉ b.Unallocated := fun ho => by
      have := hmem o ho
      rw [hj] at this
      exact Option.noConfusion (Option.some.injEq _ _ ▸ this)
    refine ⟨?_, ?_, ?_⟩
    · exact List.nodup_append.mpr ⟨nd, List.nodup_singleton o, fun a ha hao => by
        rw [List.mem_singleton] at hao
        exact honot (hao ▸ ha)⟩
    · intro i hi
      rcases List.mem_append.mp hi with hiu | hio
      · have hne : o ≠ i := fun he => honot (he ▸ hiu)
        rw [List.getElem?_set_ne hne]
        exact hmem i hiu
      · rw [List.mem_singleton] at hio
        subst hio
        rw [List.getElem?_set_self hlen]
    · intro i hilen hig
      rw [List.length_set] at hilen
      rw [List.getElem?_set] at hig
      by_cases ho : o = i
      · exact List.mem_append.mpr (Or.inr (List.mem_singleton.mpr ho.symm))
      · rw [if_neg ho] at hig
        exact List.mem_append.mpr (Or.inl (hent i hilen hig))
  case _ =>
    exact Except.noConfusion h

/-- The whole best-effort release loop preserves the partition invariant. -/
theorem release_foldl_inv (ords : List Nat) :
    ∀ s : AllocationBlock × List ErrKind, PartitionInv s.1 →
      PartitionInv
        (ords.foldl
          (fun s o =>
            match releaseOne s.1 o with
            | .ok b2 => (b2, s.2)
            | .error e => (s.1, s.2 ++ [e]))
          s).1 := by
  induction ords with
  | nil => intro s hs; exact hs
  | cons o rest ih =>
    intro s hs
    simp only [List.foldl_cons]
    cases hro : releaseOne s.1 o with
    | ok b2 =>
      have : PartitionInv b2 := releaseOne_ok_inv s.1 o hs b2 hro
      simpa [hro] using ih (b2, s.2) this
    | error e =>
      simpa [hro] using ih (s.1, s.2 ++ [e]) hs

/-- Compaction preserves the partition invariant. -/
theorem compact_inv (b : AllocationBlock) (h : PartitionInv b) :
    PartitionInv (compact b) := by
  obtain ⟨nd, hmem, hent⟩ := h
  refine ⟨nd, ?_, ?_⟩
  · intro i hi
    show (b.Allocations.map _)[i]? = some none
    rw [List.getElem?_map, hmem i hi]
    rfl
  · intro i hilen hig
    have hilen2 : i < b.Allocations.length := by
      simpa [compact] using hilen
    apply hent i hilen2
    revert hig
    show (b.Allocations.map _)[i]? = some none → _
    rw [List.getElem?_map]
    cases hx : b.Allocations[i]? with
    | none => intro hc; exact Option.noConfusion hc
    | some x =>
      intro hc
      cases x with
      | none => rfl
      | some j => exact Option.noConfusion (Option.some.injEq _ _ ▸ hc)

/-- Claim C9: the non-empty `Allocations` entries and the `Unallocated`
members partition the ordinal range exactly: the invariant holds for a fresh
block and is preserved by allocation, by the best-effort release loop and by
compaction (the ledger operations, modelled from the specification since
their code is not part of this repository's sources). -/
theorem c9_partition_invariant :
    (∀ (cidr : IPNet) (n : Nat), PartitionInv (newBlock cidr n)) ∧
    (∀ b count hID sec host sel b2, PartitionInv b →
      allocate b count hID sec host = .ok (sel, b2) → PartitionInv b2) ∧
    (∀ b ords, PartitionInv b → PartitionInv (release b ords).1) ∧
    (∀ b, PartitionInv b → PartitionInv (compact b)) := by
  refine ⟨newBlock_inv, ?_, ?_, compact_inv⟩
  · intro b count hID sec host sel b2 hinv h
    exact allocate_ok_inv b count hID sec host sel b2 hinv h
  · intro b ords hinv
    unfold release
    exact release_foldl_inv ords (b, []) hinv

/-- Witness for C9 on a concrete 4-address block: fresh, after allocating
two ordinals, after releasing one of them again, and after compaction. -/
theorem c9_partition_invariant_witness :
    PartitionInv (newBlock ⟨some (.v4 10 0 0 0), 30⟩ 4) ∧
    PartitionInv ⟨⟨some (.v4 10 0 0 0), 30⟩, none, false,
      [some 0, some 0, none, none], [2, 3], [⟨some "h1", []⟩]⟩ ∧
    PartitionInv (release ⟨⟨some (.v4 10 0 0 0), 30⟩, none, false,
      [some 0, some 0, none, none], [2, 3], [⟨some "h1", []⟩]⟩ [0]).1 ∧
    PartitionInv (compact ⟨⟨some (.v4 10 0 0 0), 30⟩, none, false,
      [some 0, some 0, none, none], [2, 3], [⟨some "h1", []⟩]⟩) :=
  ⟨c9_partition_invariant.1 ⟨some (.v4 10 0 0 0), 30⟩ 4,
   c9_partition_invariant.2.1 (newBlock ⟨some (.v4 10 0 0 0), 30⟩ 4) 2 (some "h1") []
     "nodeA" [0, 1]
     ⟨⟨some (.v4 10 0 0 0), 30⟩, none, false,
       [some 0, some 0, none, none], [2, 3], [⟨some "h1", []⟩]⟩
     (by decide) rfl,
   c9_partition_invariant.2.2.1
     ⟨⟨some (.v4 10 0 0 0), 30⟩, none, false,
       [some 0, some 0, none, none], [2, 3], [⟨some "h1", []⟩]⟩ [0] (by decide),
   c9_partition_invariant.2.2.2
     ⟨⟨some (.v4 10 0 0 0), 30⟩, none, false,
       [some 0, some 0, none, none], [2, 3], [⟨some "h1", []⟩]⟩ (by decide)⟩

end Calico
